import Mathlib

/-!
Shallow embedding of `stable_baselines/deepq/rank_based_per.py`
(`RankPrioritizedReplayBuffer`).

The buffer state keeps the fields of `__init__` that the verified claims
touch: `size` (capacity), `replace_flag` (the overwrite toggle; hard-coded
to `True` in `__init__` and modelled here as a construction parameter, as
§9 of the design notes describes it), `learning_starts`, `batch_size`,
`partition_num` (set to `batch_size` in `__init__`), the circular insert
pointer `index`, the counter `record_size`, the flag `isFull`, and the
dictionary `_storage` (modelled as an association list with unique keys;
`del` followed by assignment is erase-then-append).

The priority queue lives in `binary_heap.py`, which is not among the
sources; `add`'s call to `priority_queue.update` mutates only that
component and none of the fields above, so the heap is omitted from the
state.  Where `sample` consults the heap (the rejection test inside the
stratum loop) it is abstracted as an acceptance predicate.
-/

structure RB (α : Type) where
  size : ℕ
  replace_flag : Bool
  learning_starts : ℕ
  batch_size : ℕ
  partition_num : ℕ
  index : ℕ
  record_size : ℕ
  isFull : Bool
  storage : List (ℕ × α)
deriving DecidableEq

/-- Fresh buffer as built by `__init__(size, alpha, learning_starts,
batch_size)`: `index = 0`, `record_size = 0`, empty storage,
`partition_num = batch_size`.  The overwrite toggle is a parameter. -/
def mkRB (α : Type) (size ls bs : ℕ) (replace : Bool) : RB α :=
  ⟨size, replace, ls, bs, bs, 0, 0, false, []⟩

/-- Python dict lookup `d[k]`: `none` models the `KeyError`. -/
def dictLookup (d : List (ℕ × α)) (k : ℕ) : Option α :=
  (d.find? (fun p => p.1 == k)).map (fun p => p.2)

/-- Python `del d[k]` (when present) followed by `d[k] = v`. -/
def dictInsert (d : List (ℕ × α)) (k : ℕ) (v : α) : List (ℕ × α) :=
  d.filter (fun p => ! (p.1 == k)) ++ [(k, v)]

/-- Embedding of `fix_index` (lines 72-89): increments `record_size` whenever
`record_size <= size`, then either wraps (`index % size == 0`), where it
recomputes `isFull` and — if the replace flag is set — resets `index` to 1
and returns it, or, with replacing off, returns `-1`; otherwise it
advances `index` by one and returns it.  The pair is (returned index, new
state). -/
def fixIndexWrap (s1 : RB α) : Int × RB α :=
  if s1.index % s1.size = 0 then
    if s1.replace_flag then
      ((1 : Int), { s1 with isFull := s1.storage.length == s1.size, index := 1 })
    else ((-1 : Int), { s1 with isFull := s1.storage.length == s1.size })
  else ((s1.index + 1 : ℕ), { s1 with index := s1.index + 1 })

def fix_index (s : RB α) : Int × RB α :=
  fixIndexWrap
    (if s.record_size ≤ s.size then { s with record_size := s.record_size + 1 } else s)

/-- Embedding of `add` (lines 97-116): calls `fix_index`; on a positive insert index it
(re)writes the storage dictionary there and returns `True`, else returns
`False` and stores nothing.  (The `priority_queue.update` call touches only
the omitted heap component.) -/
def addRB (s : RB α) (e : α) : Bool × RB α :=
  if 0 < (fix_index s).1 then
    (true,
      { (fix_index s).2 with
        storage := dictInsert (fix_index s).2.storage (fix_index s).1.toNat e })
  else (false, (fix_index s).2)

/-- Folding a whole sequence of `add` calls over a starting state. -/
def addAll (s : RB α) (es : List α) : RB α :=
  es.foldl (fun t e => (addRB t e).2) s

/-- Embedding of `can_sample` (lines 91-95): the argument defaults to `batch_size`. -/
def can_sample (s : RB α) (batchSize : Option ℕ) : Bool :=
  let b := batchSize.getD s.batch_size
  b ≤ s.record_size

-- Basic bookkeeping lemmas about one `add` step.

theorem fixIndexWrap_record (s : RB α) :
    ((fixIndexWrap s).2).record_size = s.record_size := by
  unfold fixIndexWrap
  split_ifs <;> rfl

theorem fixIndexWrap_size (s : RB α) : ((fixIndexWrap s).2).size = s.size := by
  unfold fixIndexWrap
  split_ifs <;> rfl

theorem fix_index_record (s : RB α) :
    ((fix_index s).2).record_size =
      if s.record_size ≤ s.size then s.record_size + 1 else s.record_size := by
  unfold fix_index
  split_ifs <;> rw [fixIndexWrap_record]

theorem fix_index_size (s : RB α) : ((fix_index s).2).size = s.size := by
  unfold fix_index
  split_ifs <;> rw [fixIndexWrap_size]

theorem addRB_record (s : RB α) (e : α) :
    ((addRB s e).2).record_size =
      if s.record_size ≤ s.size then s.record_size + 1 else s.record_size := by
  unfold addRB
  split <;> simp [fix_index_record]

theorem addRB_size (s : RB α) (e : α) : ((addRB s e).2).size = s.size := by
  unfold addRB
  split <;> simp [fix_index_size]

theorem addAll_size (es : List α) (s : RB α) : (addAll s es).size = s.size := by
  induction es generalizing s with
  | nil => rfl
  | cons e es ih =>
      show (addAll (addRB s e).2 es).size = s.size
      rw [ih, addRB_size]

theorem addAll_record_le (es : List α) (s : RB α)
    (h : s.record_size ≤ s.size + 1) :
    (addAll s es).record_size ≤ s.size + 1 := by
  induction es generalizing s with
  | nil => exact h
  | cons e es ih =>
      show (addAll (addRB s e).2 es).record_size ≤ s.size + 1
      have h2 : ((addRB s e).2).record_size ≤ s.size + 1 := by
        rw [addRB_record]
        split <;> omega
      have := ih (addRB s e).2 (by rw [addRB_size]; exact h2)
      rwa [addRB_size] at this

/-- C1 (amended): over any configuration and any sequence of `add` calls,
`record_size` never exceeds `capacity + 1` (not `capacity`: `fix_index`
increments while `record_size <= size`, so it reaches `size + 1`), it is
non-decreasing under `add`, and once it reaches `capacity + 1` it stays
there. -/
theorem c1_record_size_bound (size ls bs : ℕ) (flag : Bool) (es : List α) (e : α) :
    (addAll (mkRB α size ls bs flag) es).record_size ≤ size + 1 ∧
    (addAll (mkRB α size ls bs flag) es).record_size ≤
      ((addRB (addAll (mkRB α size ls bs flag) es) e).2).record_size ∧
    ((addAll (mkRB α size ls bs flag) es).record_size = size + 1 →
      ((addRB (addAll (mkRB α size ls bs flag) es) e).2).record_size = size + 1) := by
  have hsz : (addAll (mkRB α size ls bs flag) es).size = size := addAll_size es _
  have h1 : (addAll (mkRB α size ls bs flag) es).record_size ≤ size + 1 :=
    addAll_record_le es (mkRB α size ls bs flag) (by simp [mkRB])
  refine ⟨h1, ?_, ?_⟩
  · rw [addRB_record]
    split <;> omega
  · intro hfull
    rw [addRB_record, hsz, hfull]
    simp

/-- C1 witness: at capacity 1 the bound `record_size = capacity + 1` is
reached after two `add` calls and a further `add` keeps it there. -/
theorem c1_record_size_bound_witness :
    (addAll (mkRB ℕ 1 1 1 true) [0, 0]).record_size = 2 ∧
    ((addRB (addAll (mkRB ℕ 1 1 1 true) [0, 0]) 0).2).record_size = 2 :=
  ⟨by decide, (c1_record_size_bound 1 1 1 true [0, 0] 0).2.2 (by decide)⟩

/-- C1 counterexample: the claim as stated is false — with capacity 1,
after two `add` calls `record_size = 2` strictly exceeds the capacity. -/
theorem c1_record_size_exceeds_capacity :
    (addAll (mkRB ℕ 1 1 1 true) [0, 0]).size <
      (addAll (mkRB ℕ 1 1 1 true) [0, 0]).record_size := by decide

/-- C2: `can_sample k` returns true exactly when `record_size` (the live
transition count of the claims) is at least `k`, for every buffer state. -/
theorem c2_can_sample_iff (s : RB α) (k : ℕ) :
    can_sample s (some k) = true ↔ k ≤ s.record_size := by
  simp [can_sample]

/-- C2 witness: a concrete state with three live records can serve a batch
of three. -/
theorem c2_can_sample_iff_witness :
    can_sample (addAll (mkRB ℕ 8 4 2 true) [0, 0, 0]) (some 3) = true :=
  (c2_can_sample_iff (addAll (mkRB ℕ 8 4 2 true) [0, 0, 0]) 3).mpr (by decide)

/-- C3 (code bug): with capacity 4 and overwriting disabled the code does
not behave as claimed at the claimed scenario: already the first `add` is
rejected (`fix_index` treats the initial `index = 0` as the wrap point, so
with `replace_flag` off it returns `-1` on an empty buffer, while its own
message asserts the buffer is full), nothing is ever stored, and
`record_size` still grows on every failed call, reaching 5 after the five
attempted inserts. -/
theorem c3_overwrite_disabled_rejects_all :
    (addRB (mkRB ℕ 4 4 2 false) 0).1 = false ∧
    ((addRB (mkRB ℕ 4 4 2 false) 0).2).storage = [] ∧
    (addAll (mkRB ℕ 4 4 2 false) [0, 0, 0, 0, 0]).record_size = 5 ∧
    (addAll (mkRB ℕ 4 4 2 false) [0, 0, 0, 0, 0]).storage = [] := by decide

/-- Embedding of `retrieve` (lines 118-135): walks the requested indices in
order; an index equal to 0 is replaced by 1 before the dictionary access;
a missing key aborts the whole call (the `KeyError`, modelled as `none`).
The payload is returned per request position (the split into five parallel
arrays is pure reshaping of the same data, so the transition tuples are
kept whole). -/
def retrieveRB (d : List (ℕ × α)) : List ℕ → Option (List α)
  | [] => some []
  | i :: is =>
    match dictLookup d (if i = 0 then 1 else i) with
    | none => none
    | some t =>
      match retrieveRB d is with
      | none => none
      | some l => some (t :: l)

/-- C8 (amended): for a request list of nonzero slot ids, `retrieve`
either fails — exactly when some requested slot is absent from storage —
or returns one transition per requested slot, in request order (the
original claim fails only on requests containing the id 0, which is
silently remapped to slot 1; see the counterexample and C10). -/
theorem c8_retrieve_all_or_nothing (d : List (ℕ × α)) (req : List ℕ)
    (hz : ∀ i ∈ req, i ≠ 0) :
    (retrieveRB d req = none ↔ ∃ i ∈ req, dictLookup d i = none) ∧
    ∀ l, retrieveRB d req = some l →
      List.Forall₂ (fun i t => dictLookup d i = some t) req l := by
  induction req with
  | nil =>
      refine ⟨by simp [retrieveRB], ?_⟩
      intro l hl
      simp [retrieveRB] at hl
      subst hl
      exact List.Forall₂.nil
  | cons i is ih =>
      have hi : (if i = 0 then 1 else i) = i := by
        have := hz i (List.mem_cons_self i is)
        simp [this]
      have ih2 := ih (fun j hj => hz j (List.mem_cons_of_mem i hj))
      cases hdi : dictLookup d i with
      | none =>
          have heq : retrieveRB d (i :: is) = none := by
            simp [retrieveRB, hi, hdi]
          refine ⟨⟨fun _ => ⟨i, List.mem_cons_self i is, hdi⟩, fun _ => heq⟩, ?_⟩
          intro l hl
          rw [heq] at hl
          exact Option.noConfusion hl
      | some t =>
          cases hris : retrieveRB d is with
          | none =>
              have heq : retrieveRB d (i :: is) = none := by
                simp [retrieveRB, hi, hdi, hris]
              refine ⟨⟨fun _ => ?_, fun _ => heq⟩, ?_⟩
              · rcases ih2.1.mp hris with ⟨j, hj, hjn⟩
                exact ⟨j, List.mem_cons_of_mem i hj, hjn⟩
              · intro l hl
                rw [heq] at hl
                exact Option.noConfusion hl
          | some l' =>
              have heq : retrieveRB d (i :: is) = some (t :: l') := by
                simp [retrieveRB, hi, hdi, hris]
              refine ⟨⟨?_, ?_⟩, ?_⟩
              · intro h
                rw [heq] at h
                exact Option.noConfusion h
              · rintro ⟨j, hj, hjn⟩
                rcases List.mem_cons.mp hj with rfl | hj'
                · rw [hdi] at hjn
                  exact Option.noConfusion hjn
                · have := ih2.1.mpr ⟨j, hj', hjn⟩
                  rw [hris] at this
                  exact Option.noConfusion this
              · intro l hl
                rw [heq] at hl
                injection hl with hl2
                subst hl2
                exact List.Forall₂.cons hdi (ih2.2 l' hris)

/-- C8 witness: a two-slot store returns both requested transitions in the
requested (reversed) order. -/
theorem c8_retrieve_all_or_nothing_witness :
    List.Forall₂ (fun i t => dictLookup [(1, (10 : ℕ)), (2, 20)] i = some t)
      [2, 1] [20, 10] :=
  (c8_retrieve_all_or_nothing [(1, (10 : ℕ)), (2, 20)] [2, 1]
    (by decide)).2 [20, 10] (by decide)

/-- C8 counterexample: slot 0 was never written (its lookup fails), yet a
request containing 0 succeeds with the transition of slot 1 substituted,
instead of the claimed failure. -/
theorem c8_zero_request_substitutes :
    retrieveRB [(1, (42 : ℕ))] [0] = some [42] ∧
    dictLookup [(1, (42 : ℕ))] 0 = none := by decide

/-- C10: an entry 0 in a request list is silently treated as slot 1 — the
whole call behaves exactly as if 1 had been requested at that position,
and when slot 1 holds a transition a request for slot 0 returns it rather
than failing. -/
theorem c10_zero_treated_as_one :
    (∀ (d : List (ℕ × α)) (pre post : List ℕ),
        retrieveRB d (pre ++ 0 :: post) = retrieveRB d (pre ++ 1 :: post)) ∧
    (∀ (d : List (ℕ × α)) (t : α), dictLookup d 1 = some t →
        retrieveRB d [0] = some [t]) := by
  constructor
  · intro d pre post
    induction pre with
    | nil => rfl
    | cons p pre ih =>
        simp only [List.cons_append, retrieveRB, List.append_eq, ih]
  · intro d t h
    simp [retrieveRB, h]

/-- C10 witness: concrete instance of both parts, at a one-slot store. -/
theorem c10_zero_treated_as_one_witness :
    retrieveRB [(1, (5 : ℕ))] [0] = some [5] :=
  c10_zero_treated_as_one.2 [(1, (5 : ℕ))] 5 rfl

-- Characterization of the insert pointer used for C9.

theorem fixIndexWrap_index (s : RB α) :
    ((fixIndexWrap s).2).index =
      if s.index % s.size = 0 then (if s.replace_flag then 1 else s.index)
      else s.index + 1 := by
  unfold fixIndexWrap
  split_ifs <;> rfl

theorem fixIndexWrap_fst (s : RB α) :
    (fixIndexWrap s).1 =
      if s.index % s.size = 0 then (if s.replace_flag then (1 : Int) else (-1 : Int))
      else ((s.index + 1 : ℕ) : Int) := by
  unfold fixIndexWrap
  split_ifs <;> rfl

theorem fix_index_index (s : RB α) :
    ((fix_index s).2).index =
      if s.index % s.size = 0 then (if s.replace_flag then 1 else s.index)
      else s.index + 1 := by
  unfold fix_index
  split_ifs <;> simp_all [fixIndexWrap_index]

theorem fix_index_fst (s : RB α) :
    (fix_index s).1 =
      if s.index % s.size = 0 then (if s.replace_flag then (1 : Int) else (-1 : Int))
      else ((s.index + 1 : ℕ) : Int) := by
  unfold fix_index
  split_ifs <;> simp_all [fixIndexWrap_fst]

theorem addRB_index (s : RB α) (e : α) :
    ((addRB s e).2).index = ((fix_index s).2).index := by
  unfold addRB
  split <;> rfl

theorem addRB_index_le (s : RB α) (e : α) (h1 : 1 ≤ s.size)
    (h2 : s.index ≤ s.size) : ((addRB s e).2).index ≤ s.size := by
  rw [addRB_index, fix_index_index]
  split_ifs with hw hr
  · exact h1
  · exact h2
  · rcases Nat.lt_or_ge s.index s.size with hlt | hge
    · omega
    · have : s.index = s.size := le_antisymm h2 hge
      rw [this, Nat.mod_self] at hw
      exact absurd rfl hw

theorem addAll_index_le (es : List α) (s : RB α) (h1 : 1 ≤ s.size)
    (h2 : s.index ≤ s.size) : (addAll s es).index ≤ s.size := by
  induction es generalizing s with
  | nil => exact h2
  | cons e es ih =>
      show (addAll (addRB s e).2 es).index ≤ s.size
      have := ih (addRB s e).2 (by rw [addRB_size]; exact h1)
        (by rw [addRB_size]; exact addRB_index_le s e h1 h2)
      rwa [addRB_size] at this

theorem dictLookup_dictInsert (d : List (ℕ × α)) (k : ℕ) (v : α) :
    dictLookup (dictInsert d k v) k = some v := by
  unfold dictLookup dictInsert
  induction d with
  | nil => simp
  | cons p d ih =>
      rw [List.filter_cons]
      by_cases hp : p.1 = k
      · simp [hp]
      · simp [hp]

/-- C9 (amended): on any state reached by a sequence of `add` calls on a
buffer of positive capacity, a successful `add` (positive `fix_index`
result) stores the transition at the slot `fix_index` computed, that slot
lies in `[1, capacity]`, and the call returns `True` — a constant success
Boolean, not the slot id (the slot is not part of the return value; see
the counterexample). -/
theorem c9_add_stores_at_slot (size ls bs : ℕ) (flag : Bool) (es : List α)
    (e : α) (s : RB α) (hsz : 1 ≤ size)
    (hs : s = addAll (mkRB α size ls bs flag) es)
    (hpos : 0 < (fix_index s).1) :
    (addRB s e).1 = true ∧
    1 ≤ (fix_index s).1 ∧ (fix_index s).1 ≤ (size : Int) ∧
    dictLookup ((addRB s e).2).storage (fix_index s).1.toNat = some e := by
  have hidx : s.index ≤ size := by
    rw [hs]
    exact addAll_index_le es (mkRB α size ls bs flag) hsz (Nat.zero_le _)
  have hssize : s.size = size := by rw [hs]; exact addAll_size es _
  have hbnd : 1 ≤ (fix_index s).1 ∧ (fix_index s).1 ≤ (size : Int) := by
    rw [fix_index_fst] at hpos ⊢
    split_ifs at hpos ⊢ with hw hr
    · exact ⟨le_refl 1, by exact_mod_cast hsz⟩
    · omega
    · constructor
      · exact_mod_cast Nat.succ_le_succ (Nat.zero_le s.index)
      · rcases Nat.lt_or_ge s.index s.size with hlt | hge
        · have : s.index + 1 ≤ size := by omega
          exact_mod_cast this
        · have hix : s.index = s.size := le_antisymm (hssize ▸ hidx) hge
          rw [hix, Nat.mod_self] at hw
          exact absurd rfl hw
  refine ⟨?_, hbnd.1, hbnd.2, ?_⟩
  · unfold addRB
    rw [if_pos hpos]
  · unfold addRB
    rw [if_pos hpos]
    exact dictLookup_dictInsert _ _ _

/-- C9 witness: the first `add` on an empty capacity-4 buffer succeeds,
the computed slot is 1, and the transition is found there afterwards. -/
theorem c9_add_stores_at_slot_witness :
    (addRB (mkRB ℕ 4 4 2 true) 7).1 = true ∧
    1 ≤ (fix_index (mkRB ℕ 4 4 2 true)).1 ∧
    (fix_index (mkRB ℕ 4 4 2 true)).1 ≤ (4 : Int) ∧
    dictLookup ((addRB (mkRB ℕ 4 4 2 true) 7).2).storage
      (fix_index (mkRB ℕ 4 4 2 true)).1.toNat = some 7 :=
  c9_add_stores_at_slot 4 4 2 true [] 7 (mkRB ℕ 4 4 2 true)
    (by decide) rfl (by decide)

/-- C9 counterexample: two successful `add` calls that store at the
distinct slots 1 and 2 return the same value, so the value returned by
`add` is a success Boolean and cannot be the slot id the claim says it
is. -/
theorem c9_add_returns_status_not_slot :
    (addRB (mkRB ℕ 4 4 2 true) 0).1 =
      (addRB ((addRB (mkRB ℕ 4 4 2 true) 0).2) 1).1 ∧
    (fix_index (mkRB ℕ 4 4 2 true)).1 = 1 ∧
    (fix_index ((addRB (mkRB ℕ 4 4 2 true) 0).2)).1 = 2 := by decide

/-- Keys of the distribution table built by `build_distributions`
(lines 30-70): the loop visits `n = partition_size, 2*partition_size, ...`
up to `size` with a counter `partition_num` starting at 1, and stores a
distribution under the counter value `j` exactly when
`learning_starts <= n <= priority_size` (with `priority_size = size` and
`n = j * partition_size`).  Only the key set matters for the lookup in
`sample`; the per-key pdf and strata are modelled separately below. -/
def buildDistKeys (size partition_size ls : ℕ) : List ℕ :=
  (List.range' 1 (size / partition_size)).filter
    (fun j => decide (ls ≤ j * partition_size) && decide (j * partition_size ≤ size))

/-- Bucket index computed by `sample` (line 165):
`max(floor(record_size / size * partition_num), 1)`.  Python evaluates the
inner expression in binary floating point; the exact rational value is
used here, and the concrete instances below are chosen with
power-of-two sizes where the float result coincides. -/
def distIndex (s : RB α) : ℕ := max (s.record_size * s.partition_num / s.size) 1

/-- Resolution of `self.distributions[dist_index]` in `sample` (line 169),
with `partition_size = floor(size / partition_num)` (line 40): `none`
models the `KeyError` on a missing bucket — the only point where sampling
can fail with `DistributionNotReadyError`. -/
def distLookup (s : RB α) : Option ℕ :=
  if distIndex s ∈ buildDistKeys s.size (s.size / s.partition_num) s.learning_starts
  then some (distIndex s) else none

theorem mem_buildDistKeys (size ps ls j : ℕ) (hps : 1 ≤ ps) (hj : 1 ≤ j) :
    j ∈ buildDistKeys size ps ls ↔ ls ≤ j * ps ∧ j * ps ≤ size := by
  unfold buildDistKeys
  rw [List.mem_filter, List.mem_range'_1]
  constructor
  · rintro ⟨⟨-, -⟩, hcond⟩
    simp only [Bool.and_eq_true, decide_eq_true_eq] at hcond
    exact hcond
  · rintro ⟨h1, h2⟩
    refine ⟨⟨hj, ?_⟩, by simp only [Bool.and_eq_true, decide_eq_true_eq]; exact ⟨h1, h2⟩⟩
    have : j ≤ size / ps := (Nat.le_div_iff_mul_le hps).mpr h2
    omega

/-- C4 (amended): `sample` fails at its distribution lookup exactly when
the computed bucket index `j = max(floor(record_size * batch_size / capacity), 1)`
has no table entry, i.e. iff `j * partition_size < learning_starts` or
`j * partition_size > capacity`; a live count below `learning_starts` does
not by itself make the lookup fail (see the counterexample). -/
theorem c4_distribution_lookup_iff (s : RB α)
    (hps : 1 ≤ s.size / s.partition_num) :
    distLookup s = none ↔
      (distIndex s * (s.size / s.partition_num) < s.learning_starts ∨
        s.size < distIndex s * (s.size / s.partition_num)) := by
  have hj : 1 ≤ distIndex s := le_max_right _ 1
  have hmem := mem_buildDistKeys s.size (s.size / s.partition_num)
    s.learning_starts (distIndex s) hps hj
  unfold distLookup
  split_ifs with h
  · have hc := hmem.mp h
    simp only [reduceCtorEq, false_iff]
    generalize distIndex s * (s.size / s.partition_num) = q at hc ⊢
    omega
  · have hc : ¬(s.learning_starts ≤ distIndex s * (s.size / s.partition_num) ∧
        distIndex s * (s.size / s.partition_num) ≤ s.size) :=
      fun hx => h (hmem.mpr hx)
    simp only [true_iff]
    generalize distIndex s * (s.size / s.partition_num) = q at hc ⊢
    omega

/-- C4 witness: with capacity 8, `learning_starts` 5 and batch size 2,
one live record resolves to bucket 1 whose fill level 4 is below
`learning_starts`, so the lookup fails. -/
theorem c4_distribution_lookup_iff_witness :
    distLookup (addAll (mkRB ℕ 8 5 2 true) [0]) = none :=
  (c4_distribution_lookup_iff (addAll (mkRB ℕ 8 5 2 true) [0])
    (by decide)).mpr (Or.inl (by decide))

/-- C4 counterexample: with capacity 8, `learning_starts` 4 and batch
size 2, the state after a single `add` has `record_size = 1 <
learning_starts = 4`, yet the bucket lookup succeeds (bucket 1, fill
level 4, is in the table), so `sample` does not fail with the
distribution-not-ready error there. -/
theorem c4_low_fill_still_has_bucket :
    distLookup (addAll (mkRB ℕ 8 4 2 true) [0]) = some 1 ∧
    (addAll (mkRB ℕ 8 4 2 true) [0]).record_size <
      (addAll (mkRB ℕ 8 4 2 true) [0]).learning_starts := by decide

/-!
Strata construction of `build_distributions` (lines 44-64).  The pdf of a
bucket over ranks `1..n` is `[1^-alpha, ..., n^-alpha]` normalized; Python
computes it in floating point, so the construction here is parametric in
an arbitrary exact pdf (a list of rationals) and the claims are settled
over exact arithmetic.  `cdf = np.cumsum(pdf)` is 0-indexed, `cdf[i]`
being the cumulative mass of ranks `1..i+1`.
-/

/-- Entry `i` (0-indexed) of `np.cumsum(pdf)`; saturates at `pdf.sum` past
the end, which matches the loop below whenever the walk stays in bounds
(it does whenever the thresholds stay below `pdf.sum`, the situation of
every theorem using it). -/
def cdfAt (pdf : List ℚ) (i : ℕ) : ℚ := (pdf.take (i + 1)).sum

/-- Fuelled form of the walk `while cdf[index] < step: index += 1`
(lines 59-60); the fuel is instantiated with `pdf.length`, enough
whenever `step ≤ pdf.sum`. -/
def walkIdx (pdf : List ℚ) (step : ℚ) : ℕ → ℕ → ℕ
  | idx, 0 => idx
  | idx, fuel + 1 =>
      if cdfAt pdf idx < step then walkIdx pdf step (idx + 1) fuel else idx

/-- Value of the running `index` of the strata loop (lines 57-62) after
the iteration for dict key `s`: `index` starts at 1, and the iteration
for key `s` (for `s` in `2..batch_size`) walks with threshold
`step = (s-1)/batch_size` from the previous value.  (Python accumulates
`step` by repeated float addition of `1/batch_size`; the exact value
`(s-1)/batch_size` is used here.) -/
def strataIdx (pdf : List ℚ) (B : ℕ) : ℕ → ℕ
  | 0 => 1
  | 1 => 1
  | s + 2 => walkIdx pdf ((s + 1 : ℚ) / (B : ℚ)) (strataIdx pdf B (s + 1)) pdf.length

/-- The `strata_ends` dict (lines 55-64): key 1 holds 0, key
`batch_size + 1` holds `n`, and each key `k` in `2..batch_size` holds the
walk value for its iteration. -/
def strata_ends (pdf : List ℚ) (B n : ℕ) (k : ℕ) : ℕ :=
  if k = 1 then 0 else if k = B + 1 then n else strataIdx pdf B k

/-- Comparison definition taken from the claim's own words (used only to
refute C5 as stated): the smallest rank in `1..n` whose cumulative
probability under the pdf reaches `k / batch_size` (0 if none). -/
def claimSmallestRank (pdf : List ℚ) (B k : ℕ) : ℕ :=
  ((List.range' 1 pdf.length).filter
    (fun r => decide ((k : ℚ) / (B : ℚ) ≤ (pdf.take r).sum))).headD 0

theorem walkIdx_ge (pdf : List ℚ) (step : ℚ) (fuel idx : ℕ) :
    idx ≤ walkIdx pdf step idx fuel := by
  induction fuel generalizing idx with
  | zero => exact le_refl idx
  | succ fuel ih =>
      unfold walkIdx
      split_ifs
      · exact le_trans (Nat.le_succ idx) (ih (idx + 1))
      · exact le_refl idx

theorem walkIdx_spec (pdf : List ℚ) (step : ℚ) (fuel idx : ℕ)
    (hex : ∃ k, k ≤ fuel ∧ step ≤ cdfAt pdf (idx + k)) :
    step ≤ cdfAt pdf (walkIdx pdf step idx fuel) ∧
    ∀ j, idx ≤ j → j < walkIdx pdf step idx fuel → cdfAt pdf j < step := by
  induction fuel generalizing idx with
  | zero =>
      obtain ⟨k, hk, hs⟩ := hex
      interval_cases k
      refine ⟨by simpa using hs, ?_⟩
      intro j h1 h2
      exact absurd (lt_of_le_of_lt h1 h2) (lt_irrefl idx)
  | succ fuel ih =>
      by_cases h : cdfAt pdf idx < step
      · have hw : walkIdx pdf step idx (fuel + 1) = walkIdx pdf step (idx + 1) fuel := by
          show (if cdfAt pdf idx < step then walkIdx pdf step (idx + 1) fuel else idx) =
            walkIdx pdf step (idx + 1) fuel
          rw [if_pos h]
        obtain ⟨k, hk, hs⟩ := hex
        have hk0 : k ≠ 0 := by
          rintro rfl
          simp only [Nat.add_zero] at hs
          exact absurd hs (not_le.mpr h)
        have hex2 : ∃ m, m ≤ fuel ∧ step ≤ cdfAt pdf (idx + 1 + m) := by
          refine ⟨k - 1, by omega, ?_⟩
          have : idx + 1 + (k - 1) = idx + k := by omega
          rw [this]
          exact hs
        have hrec := ih (idx + 1) hex2
        rw [hw]
        refine ⟨hrec.1, ?_⟩
        intro j h1 h2
        rcases Nat.eq_or_lt_of_le h1 with rfl | h1'
        · exact h
        · exact hrec.2 j h1' h2
      · have hw : walkIdx pdf step idx (fuel + 1) = idx := by
          show (if cdfAt pdf idx < step then walkIdx pdf step (idx + 1) fuel else idx) = idx
          rw [if_neg h]
        rw [hw]
        refine ⟨not_lt.mp h, ?_⟩
        intro j h1 h2
        exact absurd (lt_of_le_of_lt h1 h2) (lt_irrefl idx)

theorem cdfAt_saturate (pdf : List ℚ) (i : ℕ) (hi : pdf.length ≤ i + 1) :
    cdfAt pdf i = pdf.sum := by
  unfold cdfAt
  rw [List.take_of_length_le hi]

theorem strataIdx_pos (pdf : List ℚ) (B : ℕ) (s : ℕ) : 1 ≤ strataIdx pdf B s := by
  induction s with
  | zero => exact le_refl 1
  | succ m ih =>
      cases m with
      | zero => exact le_refl 1
      | succ m' =>
          show 1 ≤ walkIdx pdf _ (strataIdx pdf B (m' + 1)) pdf.length
          exact le_trans (by simpa using ih) (walkIdx_ge _ _ _ _)

/-- C5 (amended): the stored boundaries satisfy `strata_ends[1] = 0` and
`strata_ends[batch_size+1] = n`; for `k` in `2..batch_size`,
`strata_ends[k]` is at least 1 and is the first position from the
previous boundary on whose 0-indexed cdf entry reaches `(k-1)/batch_size`
— i.e. one less than a smallest rank reaching cumulative probability
`(k-1)/batch_size` (never below position 1, since the walk starts at
index 1), not the smallest rank reaching `k/batch_size` as claimed. -/
theorem c5_strata_ends_walk (pdf : List ℚ) (B n k : ℕ)
    (hB : 1 ≤ B) (_hn : pdf.length = n) (hsum : pdf.sum = 1)
    (hk2 : 2 ≤ k) (hkB : k ≤ B) :
    strata_ends pdf B n 1 = 0 ∧
    strata_ends pdf B n (B + 1) = n ∧
    1 ≤ strata_ends pdf B n k ∧
    ((k : ℚ) - 1) / (B : ℚ) ≤ cdfAt pdf (strata_ends pdf B n k) ∧
    ∀ j, strataIdx pdf B (k - 1) ≤ j → j < strata_ends pdf B n k →
      cdfAt pdf j < ((k : ℚ) - 1) / (B : ℚ) := by
  obtain ⟨m, rfl⟩ : ∃ m, k = m + 2 := ⟨k - 2, by omega⟩
  have hend1 : strata_ends pdf B n 1 = 0 := by
    unfold strata_ends
    rw [if_pos rfl]
  have hendB : strata_ends pdf B n (B + 1) = n := by
    unfold strata_ends
    rw [if_neg (by omega), if_pos rfl]
  have heq : strata_ends pdf B n (m + 2) = strataIdx pdf B (m + 2) := by
    unfold strata_ends
    rw [if_neg (by omega), if_neg (by omega)]
  have hidx : strataIdx pdf B (m + 2) =
      walkIdx pdf (((m : ℚ) + 1) / (B : ℚ)) (strataIdx pdf B (m + 1)) pdf.length := rfl
  have hBpos : (0 : ℚ) < (B : ℚ) := by
    have : (1 : ℚ) ≤ (B : ℚ) := by exact_mod_cast hB
    linarith
  have hnum : (m : ℚ) + 1 ≤ (B : ℚ) := by
    have : (m + 1 : ℕ) ≤ B := by omega
    exact_mod_cast this
  have hstep1 : ((m : ℚ) + 1) / (B : ℚ) ≤ 1 := by
    rw [div_le_one hBpos]
    exact hnum
  have hex : ∃ kk, kk ≤ pdf.length ∧
      ((m : ℚ) + 1) / (B : ℚ) ≤ cdfAt pdf (strataIdx pdf B (m + 1) + kk) := by
    refine ⟨pdf.length, le_refl _, ?_⟩
    rw [cdfAt_saturate pdf _ (by omega), hsum]
    exact hstep1
  have hspec := walkIdx_spec pdf (((m : ℚ) + 1) / (B : ℚ)) pdf.length
    (strataIdx pdf B (m + 1)) hex
  have hcast : ((m + 2 : ℕ) : ℚ) - 1 = (m : ℚ) + 1 := by
    push_cast
    ring
  have hm1 : (m + 2) - 1 = m + 1 := rfl
  refine ⟨hend1, hendB, ?_, ?_, ?_⟩
  · rw [heq]
    exact strataIdx_pos pdf B (m + 2)
  · rw [heq, hidx, hcast]
    exact hspec.1
  · intro j h1 h2
    rw [hcast]
    rw [heq, hidx] at h2
    rw [hm1] at h1
    exact hspec.2 j h1 h2

/-- C5 witness: for the uniform four-entry pdf with two strata the amended
characterization holds concretely: endpoints 0 and 4, and the stored
boundary 1 (position with cdf `1/2 ≥ 1/2`). -/
theorem c5_strata_ends_walk_witness :
    strata_ends [1/4, 1/4, 1/4, 1/4] 2 4 1 = 0 ∧
    strata_ends [1/4, 1/4, 1/4, 1/4] 2 4 3 = 4 ∧
    1 ≤ strata_ends [1/4, 1/4, 1/4, 1/4] 2 4 2 ∧
    ((2 : ℚ) - 1) / (2 : ℚ) ≤ cdfAt [1/4, 1/4, 1/4, 1/4] (strata_ends [1/4, 1/4, 1/4, 1/4] 2 4 2) := by
  have h := c5_strata_ends_walk [1/4, 1/4, 1/4, 1/4] 2 4 2 (by norm_num) rfl
    (by norm_num) (by norm_num) (by norm_num)
  exact ⟨h.1, h.2.1, h.2.2.1, by exact_mod_cast h.2.2.2.1⟩

/-- C5 counterexample: for the uniform pdf over four ranks with
`batch_size = 2`, the stored boundary `strata_ends[2]` is 1, while the
smallest rank whose cumulative probability reaches `2/2` — the claim's
description of it — is 4. -/
theorem c5_boundary_is_not_claimed_rank :
    strata_ends [1/4, 1/4, 1/4, 1/4] 2 4 2 = 1 ∧
    claimSmallestRank [1/4, 1/4, 1/4, 1/4] 2 2 = 4 ∧
    strata_ends [1/4, 1/4, 1/4, 1/4] 2 4 2 ≠
      claimSmallestRank [1/4, 1/4, 1/4, 1/4] 2 2 := by
  have h1 : strata_ends [1/4, 1/4, 1/4, 1/4] 2 4 2 = 1 := by
    norm_num [strata_ends, strataIdx, walkIdx, cdfAt, List.take, List.sum_cons,
      List.sum_nil]
  have h2 : claimSmallestRank [1/4, 1/4, 1/4, 1/4] 2 2 = 4 := by
    norm_num [claimSmallestRank, List.range', List.filter, List.take,
      List.sum_cons, List.sum_nil]
  exact ⟨h1, h2, by rw [h1, h2]; omega⟩

/-!
Stratum loop of `sample` (lines 170-184).  The random draws
(`random.randint(lo, hi)`, inclusive on both ends) are modelled as an
oracle stream of candidates per stratum, and the in-storage rejection
test (`priority_to_experience([index])[0] <= record_size`, whose heap
implementation `binary_heap.py` is not among the sources) as an
acceptance predicate on ranks.
-/

/-- First accepted candidate of the rejection loop (lines 176-183);
`none` models a stream in which no candidate is ever accepted (in the
source that run would not terminate). -/
def firstAccepted (accept : ℕ → Bool) : List ℕ → Option ℕ
  | [] => none
  | d :: ds => if accept d then some d else firstAccepted accept ds

/-- One stratum's draw (lines 173-184): a degenerate stratum
(`strata_ends[n] + 1 >= strata_ends[n+1]`) contributes its single
endpoint without consulting the heap; otherwise candidates are tried
until accepted. -/
def drawStratum (lo hi : ℕ) (accept : ℕ → Bool) (cands : List ℕ) : Option ℕ :=
  if hi ≤ lo then some lo else firstAccepted accept cands

/-- The loop `for n in range(1, batch_size + 1)` building `rank_list`,
processing the given list of stratum numbers in order. -/
def sampleRanksFrom (ends : ℕ → ℕ) (accept : ℕ → Bool) (draws : ℕ → List ℕ) :
    List ℕ → Option (List ℕ)
  | [] => some []
  | k :: ks =>
      match drawStratum (ends k + 1) (ends (k + 1)) accept (draws k) with
      | none => none
      | some v =>
          match sampleRanksFrom ends accept draws ks with
          | none => none
          | some l => some (v :: l)

/-- Rank list drawn by one `sample` call over strata `1..batch_size`. -/
def sampleRanks (ends : ℕ → ℕ) (accept : ℕ → Bool) (draws : ℕ → List ℕ)
    (B : ℕ) : Option (List ℕ) :=
  sampleRanksFrom ends accept draws (List.range' 1 B)

theorem firstAccepted_mem (accept : ℕ → Bool) (cands : List ℕ) (v : ℕ)
    (h : firstAccepted accept cands = some v) : v ∈ cands := by
  induction cands with
  | nil => exact Option.noConfusion h
  | cons d ds ih =>
      unfold firstAccepted at h
      split_ifs at h with hd
      · rw [Option.some_inj.mp h] at hd ⊢
        exact List.mem_cons_self _ _
      · exact List.mem_cons_of_mem d (ih h)

theorem drawStratum_spec (lo hi : ℕ) (accept : ℕ → Bool) (cands : List ℕ)
    (v : ℕ) (hc : ∀ d ∈ cands, lo ≤ d ∧ d ≤ hi)
    (h : drawStratum lo hi accept cands = some v) :
    (hi ≤ lo ∧ v = lo) ∨ (lo ≤ v ∧ v ≤ hi) := by
  unfold drawStratum at h
  split_ifs at h with hd
  · exact Or.inl ⟨hd, (Option.some_inj.mp h).symm⟩
  · exact Or.inr (hc v (firstAccepted_mem accept cands v h))

theorem sampleRanksFrom_spec (ends : ℕ → ℕ) (accept : ℕ → Bool)
    (draws : ℕ → List ℕ) (ks : List ℕ) (l : List ℕ)
    (hc : ∀ k ∈ ks, ∀ d ∈ draws k, ends k + 1 ≤ d ∧ d ≤ ends (k + 1))
    (h : sampleRanksFrom ends accept draws ks = some l) :
    List.Forall₂ (fun k v =>
      (ends (k + 1) ≤ ends k + 1 ∧ v = ends k + 1) ∨
      (ends k + 1 ≤ v ∧ v ≤ ends (k + 1))) ks l := by
  induction ks generalizing l with
  | nil =>
      unfold sampleRanksFrom at h
      rw [← Option.some_inj.mp h]
      exact List.Forall₂.nil
  | cons k ks ih =>
      unfold sampleRanksFrom at h
      cases hd : drawStratum (ends k + 1) (ends (k + 1)) accept (draws k) with
      | none => rw [hd] at h; exact Option.noConfusion h
      | some v =>
          rw [hd] at h
          cases hr : sampleRanksFrom ends accept draws ks with
          | none => rw [hr] at h; exact Option.noConfusion h
          | some l' =>
              rw [hr] at h
              rw [← Option.some_inj.mp h]
              refine List.Forall₂.cons ?_ (ih l' (fun j hj => hc j (List.mem_cons_of_mem k hj)) hr)
              have := drawStratum_spec (ends k + 1) (ends (k + 1)) accept (draws k) v
                (hc k (List.mem_cons_self k ks)) hd
              tauto

/-- C6: whenever one `sample` call succeeds, it has drawn exactly one
rank per stratum: the rank list pairs up with the stratum numbers
`1..batch_size` in order, the rank for stratum `k` lying in
`[strata_ends[k]+1, strata_ends[k+1]]`, a degenerate stratum (start >=
end) contributing its single endpoint `strata_ends[k]+1` — provided each
random draw lies in the inclusive range it was requested from, the
`randint` contract. -/
theorem c6_one_rank_per_stratum (ends : ℕ → ℕ) (accept : ℕ → Bool)
    (draws : ℕ → List ℕ) (B : ℕ) (l : List ℕ)
    (hc : ∀ k, 1 ≤ k → k ≤ B → ∀ d ∈ draws k, ends k + 1 ≤ d ∧ d ≤ ends (k + 1))
    (h : sampleRanks ends accept draws B = some l) :
    l.length = B ∧
    List.Forall₂ (fun k v =>
      (ends (k + 1) ≤ ends k + 1 ∧ v = ends k + 1) ∨
      (ends k + 1 ≤ v ∧ v ≤ ends (k + 1))) (List.range' 1 B) l := by
  have hc2 : ∀ k ∈ List.range' 1 B, ∀ d ∈ draws k,
      ends k + 1 ≤ d ∧ d ≤ ends (k + 1) := by
    intro k hk
    rw [List.mem_range'_1] at hk
    exact hc k hk.1 (by omega)
  have hf := sampleRanksFrom_spec ends accept draws (List.range' 1 B) l hc2 h
  refine ⟨?_, hf⟩
  rw [← List.Forall₂.length_eq hf, List.length_range']

/-- C6 witness: with boundaries `ends k = k` every stratum is degenerate,
and a batch of two draws the two endpoints 2 and 3, one per stratum. -/
theorem c6_one_rank_per_stratum_witness :
    sampleRanks (fun k => k) (fun _ => true) (fun _ => []) 2 = some [2, 3] ∧
    ([2, 3] : List ℕ).length = 2 ∧
    List.Forall₂ (fun k v =>
      (k + 1 ≤ k + 1 ∧ v = k + 1) ∨ (k + 1 ≤ v ∧ v ≤ k + 1))
      (List.range' 1 2) [2, 3] := by
  have h : sampleRanks (fun k => k) (fun _ => true) (fun _ => []) 2 = some [2, 3] := rfl
  have hres := c6_one_rank_per_stratum (fun k => k) (fun _ => true) (fun _ => []) 2 [2, 3]
    (fun k _ _ d hd => absurd hd (List.not_mem_nil d)) h
  exact ⟨h, hres.1, hres.2⟩

/-!
Importance weights of `sample` (lines 187-192): for each drawn rank `v`,
`w = (pdf[v-1] * partition_max) ** (-beta)`, then `w = w / max(w)`.
`x ** (-beta)` for real `beta` is a floating-point power; it is abstracted
as a parameter `powf` (its single relevant property being that it maps
positive inputs to positive outputs, true of `x ↦ x^(-beta)` for every
`beta`), and the arithmetic is exact.
-/

/-- The list `np.power(np.array(alpha_pow) * partition_max, -beta)`
(lines 188-190), with `alpha_pow = [pdf[v-1] for v in rank_list]`. -/
def rawWeights (powf : ℚ → ℚ) (pdf : List ℚ) (pmax : ℚ) (ranks : List ℕ) :
    List ℚ :=
  ranks.map (fun v => powf (pdf.getD (v - 1) 0 * pmax))

/-- Python `max(w)` on a list (meaningful on nonempty lists). -/
def listMax : List ℚ → ℚ
  | [] => 0
  | x :: xs => xs.foldl max x

/-- Python `np.divide(w, w_max)` (line 192). -/
def normalizeW (w : List ℚ) : List ℚ := w.map (fun x => x / listMax w)

theorem foldl_max_le_init (xs : List ℚ) (a : ℚ) : a ≤ xs.foldl max a := by
  induction xs generalizing a with
  | nil => exact le_refl a
  | cons x xs ih => exact le_trans (le_max_left a x) (ih (max a x))

theorem foldl_max_le (xs : List ℚ) (a x : ℚ) (hx : x ∈ xs) :
    x ≤ xs.foldl max a := by
  induction xs generalizing a with
  | nil => cases hx
  | cons y ys ih =>
      rcases List.mem_cons.mp hx with rfl | h
      · exact le_trans (le_max_right a x) (foldl_max_le_init ys (max a x))
      · exact ih (max a y) h

theorem foldl_max_mem (xs : List ℚ) (a : ℚ) :
    xs.foldl max a = a ∨ xs.foldl max a ∈ xs := by
  induction xs generalizing a with
  | nil => exact Or.inl rfl
  | cons y ys ih =>
      simp only [List.foldl_cons]
      rcases ih (max a y) with h | h
      · rcases le_total a y with hay | hay
        · right
          rw [h, max_eq_right hay]
          exact List.mem_cons_self y ys
        · left
          rw [h, max_eq_left hay]
      · right
        exact List.mem_cons_of_mem y h

theorem listMax_mem (l : List ℚ) (hl : l ≠ []) : listMax l ∈ l := by
  cases l with
  | nil => exact absurd rfl hl
  | cons x xs =>
      show xs.foldl max x ∈ x :: xs
      rcases foldl_max_mem xs x with h | h
      · rw [h]
        exact List.mem_cons_self x xs
      · exact List.mem_cons_of_mem x h

theorem le_listMax (l : List ℚ) (x : ℚ) (hx : x ∈ l) : x ≤ listMax l := by
  cases l with
  | nil => cases hx
  | cons y ys =>
      rcases List.mem_cons.mp hx with rfl | h
      · exact foldl_max_le_init ys x
      · exact foldl_max_le ys y x h

/-- C7: whenever the raw weights are the power map applied to positive
inputs — the pdf entries at the drawn ranks and the scale
`partition_max` are positive, and `x ↦ x^(-beta)` sends positives to
positives for every `beta` — the normalized weights all lie in `(0, 1]`
and their maximum is exactly 1 (exact arithmetic; Python reaches this up
to floating-point rounding). -/
theorem c7_weight_normalization (powf : ℚ → ℚ) (pdf : List ℚ) (pmax : ℚ)
    (ranks : List ℕ)
    (hpow : ∀ x : ℚ, 0 < x → 0 < powf x)
    (hranks : ranks ≠ [])
    (hpdf : ∀ v ∈ ranks, 0 < pdf.getD (v - 1) 0)
    (hpmax : 0 < pmax) :
    (∀ x ∈ normalizeW (rawWeights powf pdf pmax ranks), 0 < x ∧ x ≤ 1) ∧
    listMax (normalizeW (rawWeights powf pdf pmax ranks)) = 1 := by
  have hwne : rawWeights powf pdf pmax ranks ≠ [] := by
    unfold rawWeights
    intro hcon
    exact hranks (List.map_eq_nil_iff.mp hcon)
  have hwpos : ∀ x ∈ rawWeights powf pdf pmax ranks, 0 < x := by
    unfold rawWeights
    intro x hx
    rcases List.mem_map.mp hx with ⟨v, hv, rfl⟩
    exact hpow _ (mul_pos (hpdf v hv) hpmax)
  have hmax_mem : listMax (rawWeights powf pdf pmax ranks) ∈
      rawWeights powf pdf pmax ranks := listMax_mem _ hwne
  have hmax_pos : 0 < listMax (rawWeights powf pdf pmax ranks) := hwpos _ hmax_mem
  constructor
  · intro x hx
    rcases List.mem_map.mp hx with ⟨y, hy, rfl⟩
    refine ⟨div_pos (hwpos y hy) hmax_pos, ?_⟩
    rw [div_le_one hmax_pos]
    exact le_listMax _ y hy
  · apply le_antisymm
    · have h1 : listMax (normalizeW (rawWeights powf pdf pmax ranks)) ∈
          normalizeW (rawWeights powf pdf pmax ranks) := by
        refine listMax_mem _ ?_
        unfold normalizeW
        intro hcon
        exact hwne (List.map_eq_nil_iff.mp hcon)
      rcases List.mem_map.mp h1 with ⟨y, hy, heq⟩
      rw [← heq, div_le_one hmax_pos]
      exact le_listMax _ y hy
    · refine le_listMax _ 1 ?_
      unfold normalizeW
      refine List.mem_map.mpr ⟨listMax (rawWeights powf pdf pmax ranks), hmax_mem, ?_⟩
      exact div_self (ne_of_gt hmax_pos)

/-- C7 witness: the power map `x ↦ 1/x` (the case `beta = 1`) on pdf
`[2/3, 1/3]` with scale 2 and ranks `[1, 2]` yields raw weights
`[3/4, 3/2]` and normalized weights `[1/2, 1]`: all in `(0, 1]` with
maximum exactly 1. -/
theorem c7_weight_normalization_witness :
    (∀ x ∈ normalizeW (rawWeights (fun x => 1 / x) [2/3, 1/3] 2 [1, 2]),
      0 < x ∧ x ≤ 1) ∧
    listMax (normalizeW (rawWeights (fun x => 1 / x) [2/3, 1/3] 2 [1, 2])) = 1 :=
  c7_weight_normalization (fun x => 1 / x) [2/3, 1/3] 2 [1, 2]
    (fun x hx => one_div_pos.mpr hx)
    (by simp)
    (by
      intro v hv
      rcases List.mem_cons.mp hv with rfl | hv2
      · norm_num [List.getD]
      · rcases List.mem_cons.mp hv2 with rfl | hv3
        · norm_num [List.getD]
        · cases hv3)
    (by norm_num)
